import Mathlib

/-!
Shallow embedding of the PDF heading-extraction pipeline
(`src/finale_final.py`, class `PDFHeadingExtractor`) and proofs about it.

Text is modelled as `List Char` (Python `str`), font sizes and positions as
`ℚ` (Python floats; all constants in the source are exactly representable
decimals and every comparison in the source is against such a constant, so
exact rationals are extensionally faithful).  Each Lean definition mirrors
one Python function; the mapping is given in the doc comment of each
definition.
-/

/- Core marks the rational-arithmetic primitives irreducible; re-enable
unfolding so that concrete runs of the embedded pipeline can be evaluated
by `decide`. -/
attribute [local semireducible] Rat.mul Rat.add Rat.sub Rat.inv Rat.ofScientific

/-! ### Python string primitives -/

/-- Python `str.strip()` on the left only: drop leading whitespace. -/
def dropWS (cs : List Char) : List Char := cs.dropWhile Char.isWhitespace

/-- Python `str.strip()`: drop leading and trailing whitespace. -/
def pyStrip (cs : List Char) : List Char :=
  ((cs.dropWhile Char.isWhitespace).reverse.dropWhile Char.isWhitespace).reverse

/-- Python `str.lower()` (ASCII model, as in `Char.toLower`). -/
def pyLower (cs : List Char) : List Char := cs.map Char.toLower

/-- Python `str.split()` with no arguments: split on whitespace runs,
dropping empty pieces.  Accumulator-based so the recursion is structural. -/
def pySplitAux : List Char → List Char → List (List Char)
  | [], acc => if acc.isEmpty then [] else [acc.reverse]
  | c :: cs, acc =>
    if c.isWhitespace then
      if acc.isEmpty then pySplitAux cs [] else acc.reverse :: pySplitAux cs []
    else pySplitAux cs (c :: acc)

/-- Python `text.split()`. -/
def pySplit (cs : List Char) : List (List Char) := pySplitAux cs []

/-- Is `p` a starting segment of `cs`?  (Used for anchored `re.match`.) -/
def startsWithL : List Char → List Char → Bool
  | [], _ => true
  | _ :: _, [] => false
  | a :: as, b :: bs => a == b && startsWithL as bs

/-- Python substring test `k in s`. -/
def isInfixB : List Char → List Char → Bool
  | k, [] => k.isEmpty
  | k, c :: cs => startsWithL k (c :: cs) || isInfixB k cs

/-- Python `word.strip('.,!?;:')` : the punctuation set stripped from both
ends when counting meaningful words. -/
def isStrippedPunct (c : Char) : Bool :=
  c == '.' || c == ',' || c == '!' || c == '?' || c == ';' || c == ':'

/-- Python `word.strip('.,!?;:')`. -/
def pyStripPunct (cs : List Char) : List Char :=
  ((cs.dropWhile isStrippedPunct).reverse.dropWhile isStrippedPunct).reverse

/-- Python `str.isupper()` (ASCII model): at least one cased character and
no lowercase character. -/
def pyIsUpper (cs : List Char) : Bool :=
  cs.any (fun c => c.isUpper || c.isLower) && cs.all (fun c => !c.isLower)

/-- One step of Python `str.istitle()` (ASCII model): state is
(previous character was cased, some cased character seen). -/
def pyIsTitleGo : Bool → Bool → List Char → Bool
  | _, seen, [] => seen
  | prev, seen, c :: cs =>
    if c.isUpper then (if prev then false else pyIsTitleGo true true cs)
    else if c.isLower then (if prev then pyIsTitleGo true true cs else false)
    else pyIsTitleGo false seen cs

/-- Python `str.istitle()` (ASCII model): uppercase letters only follow
uncased characters, lowercase letters only follow cased ones, and at least
one cased character occurs. -/
def pyIsTitle (cs : List Char) : Bool := pyIsTitleGo false false cs

/-- First-occurrence deduplication (the key order of a Python
`collections.Counter`). -/
def pyDedupA (seen : List ℚ) : List ℚ → List ℚ
  | [] => []
  | x :: xs => if x ∈ seen then pyDedupA seen xs else x :: pyDedupA (x :: seen) xs

/-- Distinct elements of `l`, first occurrence first. -/
def pyDedupFirst (l : List ℚ) : List ℚ := pyDedupA [] l

/-- Number of occurrences of `x` in `l` (a `Counter` entry). -/
def countOcc (x : ℚ) (l : List ℚ) : ℕ := (l.filter (fun y => y = x)).length

/-- `Counter(l).most_common(1)[0][0]`: the most frequent element; ties are
broken by first insertion order (the documented behaviour of
`Counter.most_common`, which is a stable descending sort by count). -/
def mostCommon (l : List ℚ) : ℚ :=
  match pyDedupFirst l with
  | [] => 0
  | b :: rest => rest.foldl (fun best x => if countOcc best l < countOcc x l then x else best) b

/-! ### Regular-expression matchers of `exclude_patterns` and
`_looks_like_section_title`, one decidable function per pattern.  Each
matcher implements the language of the corresponding anchored `re.match`. -/

/-- Pattern `^page \d+$`. -/
def matchPageNum (cs : List Char) : Bool :=
  startsWithL "page ".data cs &&
    (let r := cs.drop 5
     !r.isEmpty && r.all Char.isDigit)

/-- Pattern `^\d+$`. -/
def matchAllDigits (cs : List Char) : Bool :=
  !cs.isEmpty && cs.all Char.isDigit

/-- Pattern `^[A-Za-z]+\s+\d{1,2},\s+\d{4}$` (dates such as `March 5, 2024`). -/
def matchDate (cs : List Char) : Bool :=
  let r1 := cs.dropWhile Char.isAlpha
  decide (1 ≤ (cs.takeWhile Char.isAlpha).length) &&
  (let r2 := r1.dropWhile Char.isWhitespace
   decide (1 ≤ (r1.takeWhile Char.isWhitespace).length) &&
   (let ds := r2.takeWhile Char.isDigit
    (decide (ds.length = 1) || decide (ds.length = 2)) &&
    (match r2.drop ds.length with
     | ',' :: r3 =>
       let r4 := r3.dropWhile Char.isWhitespace
       decide (1 ≤ (r3.takeWhile Char.isWhitespace).length) &&
       (decide (r4.length = 4) && r4.all Char.isDigit)
     | _ => false)))

/-- Pattern `^©|©|All rights reserved` (the first two alternatives
coincide under `re.match`'s position-0 anchoring). -/
def matchCopyright (cs : List Char) : Bool :=
  startsWithL ['©'] cs || startsWithL ['©'] cs || startsWithL "All rights reserved".data cs

/-- Pattern `^Confidential`.  Note the capital `C`: the source applies this
pattern to the lowercased text, where it can never match. -/
def matchConfidential (cs : List Char) : Bool := startsWithL "Confidential".data cs

/-- Pattern `^Draft` (same capitalisation remark as `matchConfidential`). -/
def matchDraft (cs : List Char) : Bool := startsWithL "Draft".data cs

/-- Pattern `^\s*$`: the whole string is whitespace. -/
def matchBlank (cs : List Char) : Bool := cs.all Char.isWhitespace

/-- Pattern `^[^a-zA-Z]*[a-zA-Z]{1,2}[^a-zA-Z]*$`: at most two letters and
all of them contiguous. -/
def matchFragment (cs : List Char) : Bool :=
  let r := cs.dropWhile (fun c => !c.isAlpha)
  let run := r.takeWhile Char.isAlpha
  (decide (1 ≤ run.length) && decide (run.length ≤ 2)) &&
    (r.drop run.length).all (fun c => !c.isAlpha)

/-- Pattern `^https?://|^www\.|@.*\.` (URLs and e-mail-like strings). -/
def matchUrlEmail (cs : List Char) : Bool :=
  startsWithL "http://".data cs || startsWithL "https://".data cs ||
  startsWithL "www.".data cs ||
  (match cs with
   | '@' :: rest => rest.contains '.'
   | _ => false)

/-- Pattern `^\d+\.` (numbered sections). -/
def matchNumberedSection (cs : List Char) : Bool :=
  let ds := cs.takeWhile Char.isDigit
  decide (1 ≤ ds.length) &&
    (match cs.drop ds.length with
     | '.' :: _ => true
     | _ => false)

/-- Pattern `^[A-Z][^.]*:`: a capital letter, then a colon before any
period.  (Applied by the source to lowercased text, where the leading
`[A-Z]` can never match.) -/
def matchCapitalColon (cs : List Char) : Bool :=
  match cs with
  | [] => false
  | c :: rest => c.isUpper && (rest.takeWhile (fun d => d ≠ '.')).contains ':'

/-- Pattern `for each .* it could mean` (`.` does not cross a newline). -/
def matchForEach (cs : List Char) : Bool :=
  startsWithL "for each ".data cs &&
    isInfixB " it could mean".data ((cs.drop 9).takeWhile (fun d => d ≠ '\n'))

/-! ### Data model -/

/-- A merged visual line (the spec's `TextRun`): the concatenated span text,
the maximum span size, the flags and font of the span attaining it, the
minimum vertical origin, and the 1-based page number.  The `font` name is
carried by the source but never used in any decision, so it is omitted. -/
structure Line where
  text : List Char
  size : ℚ
  y : ℚ
  page : ℕ
  flags : ℕ
deriving DecidableEq, Repr

/-- The dictionary returned by `_classify_heading`: keys `level`, `text`,
`page` only — the vertical position is not part of it. -/
structure Heading where
  level : String
  text : List Char
  page : ℕ
deriving DecidableEq, Repr

/-- The dictionary produced by `_analyze_document_fonts` /
`_get_default_thresholds`. -/
structure FontAnalysis where
  base_size : ℚ
  h1_threshold : ℚ
  h2_threshold : ℚ
  h3_threshold : ℚ
  h4_threshold : ℚ
  all_sizes : List ℚ
  size_distribution : List (ℚ × ℕ)
deriving DecidableEq, Repr

/-- A text span as delivered by the PDF collaborator (text, size, vertical
origin). -/
structure Span where
  text : List Char
  size : ℚ
  y : ℚ
deriving DecidableEq, Repr

/-- A page: its height and its spans (already flattened from blocks/lines,
in reading order of the underlying page data). -/
structure Page where
  height : ℚ
  spans : List Span
deriving DecidableEq, Repr

/-! ### `_is_valid_heading_text` -/

/-- Count of `c.isalnum()` characters. -/
def alnumCount (cs : List Char) : ℕ := (cs.filter Char.isAlphanum).length

/-- `_is_valid_heading_text` (source lines 258-294): length in `[5, 200]`,
none of the `exclude_patterns` matches the lowercased text, not a pure
number, not a 1-2-letter fragment, not a URL/e-mail, alphanumeric count at
least `max(3, 0.5·len)`, and at least one word longer than two characters
after stripping `.,!?;:`. -/
def is_valid_heading_text (text0 : List Char) : Bool :=
  let text := pyStrip text0
  if text.length < 5 ∨ text.length > 200 then false
  else
    let tl := pyLower text
    if matchPageNum tl || matchAllDigits tl || matchDate tl || matchCopyright tl ||
        matchConfidential tl || matchDraft tl || matchBlank tl then false
    else if matchAllDigits text then false
    else if matchFragment text then false
    else if matchUrlEmail tl then false
    else if (alnumCount text : ℚ) < max 3 ((text.length : ℚ) * 0.5) then false
    else
      let words := pySplit text
      if words.isEmpty || words.all (fun w => (pyStripPunct w).length ≤ 2) then false
      else true

/-- `_looks_like_section_title` (source lines 379-390): the fixed pattern
set matched against the lowercased, stripped text. -/
def looks_like_section_title (text : List Char) : Bool :=
  let tl := pyStrip (pyLower text)
  startsWithL "chapter".data tl || startsWithL "section".data tl ||
  startsWithL "part".data tl || startsWithL "appendix".data tl ||
  startsWithL "introduction".data tl || startsWithL "conclusion".data tl ||
  startsWithL "summary".data tl || startsWithL "background".data tl ||
  matchNumberedSection tl || matchCapitalColon tl ||
  startsWithL "phase".data tl || startsWithL "timeline".data tl ||
  startsWithL "milestone".data tl || matchForEach tl

/-! ### `_text_similarity` and `_is_title_duplicate` -/

/-- `_text_similarity` (source lines 348-359): Jaccard similarity of the
word sets of the two texts. -/
def text_similarity (t1 t2 : List Char) : ℚ :=
  let w1 := (pySplit t1).dedup
  let w2 := (pySplit t2).dedup
  if w1.isEmpty || w2.isEmpty then 0
  else
    let inter := (w1.filter (fun w => w2.contains w)).length
    let union := (w1 ++ w2.filter (fun w => !w1.contains w)).length
    if union > 0 then (inter : ℚ) / (union : ℚ) else 0

/-- `_is_title_duplicate` (source lines 331-346). `title` is the stored
`self.document_title` (already stripped and lowercased). -/
def is_title_duplicate (title : List Char) (text : List Char) : Bool :=
  let tc := pyLower (pyStrip text)
  if tc = title then true
  else if title.length > 10 then
    isInfixB tc title || isInfixB title tc ||
      decide ((0.7 : ℚ) < text_similarity tc title)
  else false

/-! ### `_determine_heading_level` -/

/-- `_determine_heading_level` (source lines 361-377): thresholds largest
first, then the bold/1.05×body H4 escape hatch.  `flags &&& 16` is the
source's `flags & 2**4` bold test. -/
def determine_heading_level (size : ℚ) (flags : ℕ) (fa : FontAnalysis) : Option String :=
  if size ≥ fa.h1_threshold then some "H1"
  else if size ≥ fa.h2_threshold then some "H2"
  else if size ≥ fa.h3_threshold then some "H3"
  else if size ≥ fa.h4_threshold then some "H4"
  else if flags &&& 16 ≠ 0 ∧ size ≥ fa.base_size * 1.05 then some "H4"
  else none

/-! ### `_is_heading_like` and the rule-based fallback -/

/-- POS tags counted as content words by the primary validator path. -/
def contentCount (toks : List String) : ℕ :=
  (toks.filter (fun p => p == "NOUN" || p == "PROPN" || p == "ADJ" || p == "NUM")).length

/-- `text.strip().endswith('?')`. -/
def endsWithQ (text : List Char) : Bool :=
  match (pyStrip text).getLast? with
  | some '?' => true
  | _ => false

/-- `_is_heading_like_rule_based` (source lines 432-446). -/
def is_heading_like_rule_based (text : List Char) : Bool :=
  if looks_like_section_title text then true
  else if pyIsUpper text || pyIsTitle text then true
  else if (pySplit text).length ≤ 8 then true
  else if (pySplit text).length > 15 then false
  else true

/-- `_is_heading_like` (source lines 392-430).  The tagger is modelled as
`Option (List Char → Option (List String))`: `none` is a missing spaCy
model (`self.nlp is None`), and a tagger returning `none` on a text models
the `except`-to-fallback path for that one call.  A returned `some toks`
is the list of POS tags of the tokens of `text`. -/
def is_heading_like (nlp : Option (List Char → Option (List String)))
    (text : List Char) : Bool :=
  match nlp with
  | none => is_heading_like_rule_based text
  | some tagger =>
    if (pySplit text).length > 15 then false
    else
      match tagger text with
      | none => is_heading_like_rule_based text
      | some toks =>
        if looks_like_section_title text then true
        else if endsWithQ text then true
        else if toks.length ≤ 3 then true
        else if (contentCount toks : ℚ) / (toks.length : ℚ) ≥ 0.4 then true
        else if toks.any (fun p => p == "PROPN" || p == "NUM") then true
        else false

/-! ### `_analyze_document_fonts` and `_get_default_thresholds` -/

/-- The descending order used for `sorted(set(sizes), reverse=True)`. -/
def rGE (a b : ℚ) : Prop := b ≤ a

instance : DecidableRel rGE := fun a b => inferInstanceAs (Decidable (b ≤ a))

instance : IsTotal ℚ rGE := ⟨fun a b => (le_total b a)⟩

instance : IsTrans ℚ rGE := ⟨fun _ _ _ h1 h2 => le_trans h2 h1⟩

/-- `_get_default_thresholds` (source lines 207-217). -/
def get_default_thresholds : FontAnalysis :=
  ⟨12, 18, 16, 14, 13, [18, 16, 14, 13, 12], []⟩

/-- The sampled page subset (source lines 150-153): the first
`min(total, 10)` pages, plus the middle and last pages when the document
has more than 10 pages. -/
def samplePages (doc : List Page) : List Page :=
  let total := doc.length
  let idxs := (List.range (min total 10)) ++ (if total > 10 then [total / 2, total - 1] else [])
  idxs.filterMap (fun i => doc.get? i)

/-- The surviving span sizes (source lines 155-172): spans outside the
50-unit header/footer margin whose stripped text has at least 3
characters. -/
def collectSizes (doc : List Page) : List ℚ :=
  (samplePages doc).flatMap (fun p =>
    (p.spans.filter (fun sp =>
      !(sp.y < 50 || sp.y > p.height - 50) && decide (3 ≤ (pyStrip sp.text).length))).map
      (fun sp => sp.size))

/-- The `size_distribution` dictionary. -/
def sizeDist (l : List ℚ) : List (ℚ × ℕ) :=
  (pyDedupFirst l).map (fun x => (x, countOcc x l))

/-- `_analyze_document_fonts` (source lines 145-205): body size is the most
common sampled size; thresholds are seeded at 2.0/1.6/1.3/1.1 × body and
raised to the four largest distinct sizes when at least four exist. -/
def analyze_document_fonts (doc : List Page) : FontAnalysis :=
  let font_sizes := collectSizes doc
  if font_sizes = [] then get_default_thresholds
  else
    let body := mostCommon font_sizes
    let us := List.insertionSort rGE (pyDedupFirst font_sizes)
    let h1 := body * 2.0
    let h2 := body * 1.6
    let h3 := body * 1.3
    let h4 := body * 1.1
    match us with
    | a :: b :: c :: d :: _ =>
      ⟨body, max h1 a, max h2 b, max h3 c, max h4 d, us, sizeDist font_sizes⟩
    | _ => ⟨body, h1, h2, h3, h4, us, sizeDist font_sizes⟩

/-! ### The per-run classifier (`_classify_heading` / `_extract_page_headings`) -/

/-- Per-run context: the established lowercased title
(`self.document_title`), the title font size (`self.title_size`), the font
analysis, and the optional tagger (`self.nlp`). -/
structure Ctx where
  document_title : List Char
  title_size : Option ℚ
  fa : FontAnalysis
  nlp : Option (List Char → Option (List String))

/-- The dedup key `f"{level}:{text.lower()}"` of `_classify_heading`,
modelled as the (injective) pair of level and lowercased text. -/
abbrev SeenKey := String × List Char

/-- The title-echo size test `self.title_size and abs(size -
self.title_size) < 0.1` (a missing title size — `None` — is falsy). -/
def titleEcho (tsz : Option ℚ) (size : ℚ) : Bool :=
  match tsz with
  | some ts => decide (|size - ts| < 0.1)
  | none => false

/-- All checks of `_classify_heading` (source lines 296-329) except the
final seen-set deduplication: title-duplicate suppression, title-size echo
suppression on pages after the first, level assignment, and linguistic
validation.  Returns the emitted dictionary. -/
def classify_nodedup (ctx : Ctx) (text : List Char) (size : ℚ) (_y_pos : ℚ)
    (page : ℕ) (flags : ℕ) : Option Heading :=
  if ctx.document_title ≠ [] ∧ is_title_duplicate ctx.document_title text then none
  else if titleEcho ctx.title_size size ∧ page > 1 ∧ ¬ looks_like_section_title text then none
  else
    match determine_heading_level size flags ctx.fa with
    | none => none
    | some lvl =>
      if ¬ is_heading_like ctx.nlp text then none
      else some ⟨lvl, text, page⟩

/-- `_classify_heading` (source lines 296-329): the checks of
`classify_nodedup` followed by the `level:text.lower()` dedup against the
run's seen set, which is extended on acceptance. -/
def classify_heading (ctx : Ctx) (seen : List SeenKey) (text : List Char) (size : ℚ)
    (y_pos : ℚ) (page : ℕ) (flags : ℕ) : Option Heading × List SeenKey :=
  match classify_nodedup ctx text size y_pos page flags with
  | none => (none, seen)
  | some h =>
    if (h.level, pyLower h.text) ∈ seen then (none, seen)
    else (some h, seen ++ [(h.level, pyLower h.text)])

/-- The per-line gate of `_extract_page_headings` (source lines 247-254):
strip the merged text, require it non-empty and valid, then classify. -/
def classifyAll (ctx : Ctx) : List Line → List SeenKey → List Heading
  | [], _ => []
  | l :: ls, seen =>
    let text := pyStrip l.text
    if text ≠ [] ∧ is_valid_heading_text text then
      match classify_heading ctx seen text l.size l.y l.page l.flags with
      | (some h, seen') => h :: classifyAll ctx ls seen'
      | (none, seen') => classifyAll ctx ls seen'
    else classifyAll ctx ls seen

/-- The pre-dedup candidate of one line: what `_classify_heading` would
emit for it ignoring the seen-set (specification-side notion used to state
the first-occurrence-wins property). -/
def lineCandidate (ctx : Ctx) (l : Line) : Option Heading :=
  let text := pyStrip l.text
  if text ≠ [] ∧ is_valid_heading_text text then
    classify_nodedup ctx text l.size l.y l.page l.flags
  else none

/-- The pre-dedup candidate list of a run, in page-scan order. -/
def preCandidates (ctx : Ctx) (ls : List Line) : List Heading :=
  ls.filterMap (lineCandidate ctx)

/-- Specification-side first-occurrence filter: keep each
`(level, lowercased text)` key's first occurrence only. -/
def firstWins (seen : List SeenKey) : List Heading → List Heading
  | [] => []
  | h :: t =>
    if (h.level, pyLower h.text) ∈ seen then firstWins seen t
    else h :: firstWins (seen ++ [(h.level, pyLower h.text)]) t

/-! ### `_post_process_outline` -/

/-- The dedup key of the post-processor:
`item['text'].strip().lower()`. -/
def hKey (h : Heading) : List Char := pyLower (pyStrip h.text)

/-- The sort key relation of `outline.sort(key=lambda x: (x['page'],
x.get('y_pos', 0)))`.  The dictionaries produced by `_classify_heading`
never carry a `y_pos` key, so the second tuple component is `0` for every
item and the key degenerates to the page number. -/
def rPage (a b : Heading) : Prop := a.page ≤ b.page

instance : DecidableRel rPage := fun a b => inferInstanceAs (Decidable (a.page ≤ b.page))

instance : IsTotal Heading rPage := ⟨fun a b => Nat.le_total a.page b.page⟩

instance : IsTrans Heading rPage := ⟨fun _ _ _ h1 h2 => Nat.le_trans h1 h2⟩

/-- The stable sort of `_post_process_outline` (source line 454). -/
def sortOutline (l : List Heading) : List Heading := List.insertionSort rPage l

/-- `len(text_key) < len(seen_text) and text_key in seen_text and
len(text_key) < len(seen_text) * 0.8`: `k` is a proper fragment of `s`. -/
def fragB (k s : List Char) : Bool :=
  decide (k.length < s.length) && isInfixB k s &&
    decide ((k.length : ℚ) < (s.length : ℚ) * 0.8)

/-- The inner `for seen_text in list(seen_texts)` loop of
`_post_process_outline` (source lines 469-483) for the item with key `k`:
walks the snapshot `snap`, breaking with `is_fragment = True` when `k` is
a fragment of a seen text, and removing from the kept outline and the seen
set every seen text that is a fragment of `k`.  Returns
`(is_fragment, cleaned_outline, seen_texts)`. -/
def ppInner (k : List Char) : List (List Char) → List Heading → List (List Char) →
    Bool × List Heading × List (List Char)
  | [], cleaned, seen => (false, cleaned, seen)
  | s :: rest, cleaned, seen =>
    if fragB k s then (true, cleaned, seen)
    else if fragB s k then
      ppInner k rest (cleaned.filter (fun h => hKey h ≠ s)) (seen.filter (fun t => t ≠ s))
    else ppInner k rest cleaned seen

/-- The outer item loop of `_post_process_outline` (source lines 460-487):
exact-duplicate drop, then the fragment scan, then keep-and-record. -/
def ppFold : List Heading → List Heading → List (List Char) → List Heading
  | [], cleaned, _ => cleaned
  | item :: rest, cleaned, seen =>
    let k := hKey item
    if k ∈ seen then ppFold rest cleaned seen
    else
      let r := ppInner k seen cleaned seen
      if r.1 then ppFold rest r.2.1 r.2.2
      else ppFold rest (r.2.1 ++ [item]) (r.2.2 ++ [k])

/-- `_post_process_outline` (source lines 448-489). -/
def post_process_outline (l : List Heading) : List Heading :=
  if l = [] then l
  else ppFold (sortOutline l) [] []

/-- One whole document-processing run after title establishment and font
analysis: classify every merged line in page-scan order, then post-process
(the `outline` part of `extract_headings`, source lines 52-63). -/
def runOutline (ctx : Ctx) (lines : List Line) : List Heading :=
  post_process_outline (classifyAll ctx lines [])

/-! ### Specification-side relations used to state invariants -/

/-- Two post-processor keys are unrelated: distinct and neither is a
proper fragment of the other. -/
def NotRelK (a b : List Char) : Prop :=
  a ≠ b ∧ fragB a b = false ∧ fragB b a = false

/-- Every key of `K` is blocked by the live seen-set `s`: it is either
itself in `s` or a proper fragment of some text in `s` (so a later
duplicate of it can never be kept). -/
def Blocked (K s : List (List Char)) : Prop :=
  ∀ k ∈ K, k ∈ s ∨ ∃ t ∈ s, fragB k t = true

/-! ### Concrete run data used by the per-claim witnesses and
counterexamples -/

/-- A run context with the default font analysis, no title size, no tagger,
and an established title unrelated to the headings below. -/
def ctxC1 : Ctx := ⟨"technical reference manual".data, none, get_default_thresholds, none⟩

/-- Two valid heading lines on page 1 whose scan order is the reverse of
their vertical order: the first-scanned line sits lower (y = 500) than the
second-scanned one (y = 100). -/
def linesC1 : List Line :=
  [⟨"Introduction Alpha".data, 20, 500, 1, 0⟩,
   ⟨"Background Beta".data, 20, 100, 1, 0⟩]

/-- A run whose established title is the 6-character filename fallback
`report`. -/
def ctxC4 : Ctx := ⟨"report".data, none, get_default_thresholds, none⟩

/-- One heading line whose lowercased text contains the title `report`. -/
def linesC4 : List Line := [⟨"Annual Report 2024 Overview".data, 20, 100, 1, 0⟩]

/-- A run context with an established title of more than 10 characters. -/
def ctxC4W : Ctx := ⟨"annual financial report".data, none, get_default_thresholds, none⟩

/-- One accepted heading line unrelated to the title of `ctxC4W`. -/
def linesC4W : List Line := [⟨"Introduction Section".data, 20, 100, 1, 0⟩]

/-- The outline entry produced by `linesC4W`. -/
def hC4W : Heading := ⟨"H1", "Introduction Section".data, 1⟩

/-- A run context for the text-only dedup demonstration. -/
def ctxC10 : Ctx := ⟨"technical manual of the reference system".data, none, get_default_thresholds, none⟩

/-- The same text classified H1 on page 1 and H2 on page 2: the classifier
emits both (distinct `(level, text)` keys), the post-processor keeps only
the first in sorted order. -/
def linesC10 : List Line :=
  [⟨"Implementation Details".data, 20, 100, 1, 0⟩,
   ⟨"Implementation Details".data, 16, 50, 2, 0⟩]

/-- The surviving outline entry of `linesC10`. -/
def hC10 : Heading := ⟨"H1", "Implementation Details".data, 1⟩

/-- A 13-word, all-lowercase, non-patterned sentence. -/
def textC8 : List Char := "the quick brown fox runs over the lazy dog near the old barn".data

/-- A tagging of `textC8` into 15 tokens, 3 of them content words
(ratio 0.2), with no proper noun and no numeral. -/
def toksC8 : List String :=
  ["DET", "ADJ", "ADJ", "X", "VERB", "ADP", "DET", "X", "X", "ADP", "DET", "X", "X", "X", "NOUN"]

/-- A one-page document with one 20-pt heading span and two 12-pt body
spans inside the margins. -/
def docC3 : List Page :=
  [⟨800, [⟨"Heading".data, 20, 100⟩, ⟨"body text".data, 12, 200⟩, ⟨"more body".data, 12, 300⟩]⟩]

/-- A document whose only span sits inside the 50-unit header margin, so
no span survives sampling. -/
def docC9 : List Page := [⟨100, [⟨"Heading text".data, 20, 10⟩]⟩]

/-- The font analysis of the C7 scenario: thresholds h1 = 24, h2 = 20 over
body size 12. -/
def faC7 : FontAnalysis := ⟨12, 24, 20, 16, 13, [], []⟩

/-! ## Lemmas -/

/-! ### Stripping -/

theorem dropWhile_self {α : Type} (p : α → Bool) (l : List α) :
    (l.dropWhile p).dropWhile p = l.dropWhile p := by
  induction l with
  | nil => rfl
  | cons a l ih =>
    cases h : p a <;> simp [List.dropWhile_cons, h, ih]

theorem head_dropWhile_false {α : Type} (p : α → Bool) (l : List α) (c : α)
    (h : (l.dropWhile p).head? = some c) : p c = false := by
  induction l with
  | nil => simp at h
  | cons a l ih =>
    cases ha : p a
    · rw [List.dropWhile_cons, ha] at h
      simp only [Bool.false_eq_true, if_false, List.head?_cons, Option.some.injEq] at h
      rw [← h]
      exact ha
    · rw [List.dropWhile_cons, ha] at h
      simp only [if_true] at h
      exact ih h

theorem dropWhile_of_head {α : Type} (p : α → Bool) (l : List α)
    (h : ∀ c, l.head? = some c → p c = false) : l.dropWhile p = l := by
  cases l with
  | nil => rfl
  | cons a l => simp [List.dropWhile_cons, h a rfl]

theorem getLast_dropWhile {α : Type} (p : α → Bool) (l : List α)
    (h : l.dropWhile p ≠ []) : (l.dropWhile p).getLast? = l.getLast? := by
  induction l with
  | nil => simp at h
  | cons a l ih =>
    cases ha : p a
    · simp [List.dropWhile_cons, ha]
    · have hd : (a :: l).dropWhile p = l.dropWhile p := by
        simp [List.dropWhile_cons, ha]
      rw [hd] at h ⊢
      have hl : l ≠ [] := by
        intro he
        rw [he] at h
        simp at h
      rw [ih h]
      cases l with
      | nil => exact absurd rfl hl
      | cons b m => rw [List.getLast?_cons_cons]

theorem pyStrip_dropWhile (l : List Char) :
    (pyStrip l).dropWhile Char.isWhitespace = pyStrip l := by
  apply dropWhile_of_head
  intro c hc
  unfold pyStrip at hc
  rw [List.head?_reverse] at hc
  by_cases hx : ((l.dropWhile Char.isWhitespace).reverse.dropWhile Char.isWhitespace) = []
  · rw [hx] at hc
    simp at hc
  · rw [getLast_dropWhile _ _ hx, List.getLast?_reverse] at hc
    exact head_dropWhile_false _ _ _ hc

theorem strip_rev (l : List Char) :
    (pyStrip l).reverse.dropWhile Char.isWhitespace = (pyStrip l).reverse := by
  simp only [pyStrip, List.reverse_reverse, dropWhile_self]

theorem pyStrip_idem (l : List Char) : pyStrip (pyStrip l) = pyStrip l := by
  show (((pyStrip l).dropWhile Char.isWhitespace).reverse.dropWhile Char.isWhitespace).reverse
      = pyStrip l
  rw [pyStrip_dropWhile l, strip_rev l, List.reverse_reverse]

/-! ### Substring and fragment facts -/

theorem startsWithL_iff (p : List Char) : ∀ l, startsWithL p l = true ↔ ∃ r, l = p ++ r := by
  induction p with
  | nil =>
    intro l
    simp [startsWithL]
  | cons a as ih =>
    intro l
    cases l with
    | nil =>
      simp [startsWithL]
    | cons b bs =>
      simp only [startsWithL, Bool.and_eq_true, beq_iff_eq, ih bs]
      constructor
      · rintro ⟨rfl, r, rfl⟩
        exact ⟨r, rfl⟩
      · rintro ⟨r, hr⟩
        rw [List.cons_append] at hr
        cases hr
        exact ⟨rfl, r, rfl⟩

theorem isInfixB_iff (k : List Char) : ∀ s, isInfixB k s = true ↔ ∃ l r, s = l ++ k ++ r := by
  intro s
  induction s with
  | nil =>
    simp only [isInfixB, List.isEmpty_iff]
    constructor
    · rintro rfl
      exact ⟨[], [], rfl⟩
    · rintro ⟨l, r, hr⟩
      cases l <;> cases k <;> simp_all
  | cons c cs ih =>
    simp only [isInfixB, Bool.or_eq_true, startsWithL_iff, ih]
    constructor
    · rintro (⟨r, hr⟩ | ⟨l, r, rfl⟩)
      · exact ⟨[], r, by simpa using hr⟩
      · exact ⟨c :: l, r, rfl⟩
    · rintro ⟨l, r, hr⟩
      cases l with
      | nil =>
        simp at hr
        exact Or.inl ⟨r, hr⟩
      | cons x xs =>
        rw [List.cons_append, List.cons_append] at hr
        cases hr
        exact Or.inr ⟨xs, r, by simp⟩

theorem isInfixB_trans {a b c : List Char} (h1 : isInfixB a b = true)
    (h2 : isInfixB b c = true) : isInfixB a c = true := by
  rw [isInfixB_iff] at h1 h2 ⊢
  obtain ⟨l1, r1, rfl⟩ := h1
  obtain ⟨l2, r2, rfl⟩ := h2
  exact ⟨l2 ++ l1, r1 ++ r2, by simp⟩

theorem fragB_trans {a b c : List Char} (h1 : fragB a b = true) (h2 : fragB b c = true) :
    fragB a c = true := by
  simp only [fragB, Bool.and_eq_true, decide_eq_true_eq] at h1 h2 ⊢
  obtain ⟨⟨hab, hinf1⟩, hq1⟩ := h1
  obtain ⟨⟨hbc, hinf2⟩, hq2⟩ := h2
  have hc0 : (0 : ℚ) ≤ (c.length : ℚ) := by positivity
  refine ⟨⟨lt_trans hab hbc, isInfixB_trans hinf1 hinf2⟩, ?_⟩
  nlinarith

theorem fragB_asymm {a b : List Char} (h1 : fragB a b = true) (h2 : fragB b a = true) : False := by
  simp only [fragB, Bool.and_eq_true, decide_eq_true_eq] at h1 h2
  exact absurd h2.1.1 (Nat.lt_asymm h1.1.1)

/-! ### Post-processor loop invariants -/

theorem map_filter_key (c : List Heading) (s0 : List Char) :
    (c.filter (fun h => hKey h ≠ s0)).map hKey = (c.map hKey).filter (fun t => t ≠ s0) := by
  induction c with
  | nil => rfl
  | cons h t ih =>
    by_cases hh : hKey h = s0
    · rw [List.filter_cons_of_neg (by simpa using hh), List.map_cons,
        List.filter_cons_of_neg (by simpa using hh)]
      exact ih
    · rw [List.filter_cons_of_pos (by simpa using hh), List.map_cons, List.map_cons,
        List.filter_cons_of_pos (by simpa using hh)]
      rw [ih]

theorem ppInner_spec (k : List Char) :
    ∀ (snap : List (List Char)) (c : List Heading) (s : List (List Char)),
    c.map hKey = s →
    ((ppInner k snap c s).2.1.map hKey = (ppInner k snap c s).2.2) ∧
    (ppInner k snap c s).2.1.Sublist c ∧ (ppInner k snap c s).2.2.Sublist s ∧
    (∀ t ∈ s, t ∉ (ppInner k snap c s).2.2 → fragB t k = true) ∧
    ((ppInner k snap c s).1 = false →
      ∀ t ∈ (ppInner k snap c s).2.2, t ∈ snap → fragB k t = false ∧ fragB t k = false) := by
  intro snap
  induction snap with
  | nil =>
    intro c s h
    refine ⟨h, List.Sublist.refl c, List.Sublist.refl s, ?_, ?_⟩
    · intro t ht hnt
      exact absurd ht hnt
    · intro _ t _ ht
      simp at ht
  | cons s0 rest ih =>
    intro c s h
    cases h1 : fragB k s0 with
    | true =>
      simp only [ppInner, h1, if_true]
      refine ⟨h, List.Sublist.refl c, List.Sublist.refl s, ?_, ?_⟩
      · intro t ht hnt
        exact absurd ht hnt
      · intro hfalse
        simp at hfalse
    | false =>
      cases h2 : fragB s0 k with
      | true =>
        have hred : ppInner k (s0 :: rest) c s =
            ppInner k rest (c.filter (fun h => hKey h ≠ s0)) (s.filter (fun t => t ≠ s0)) := by
          simp [ppInner, h1, h2]
        rw [hred]
        have hmap : (c.filter (fun h => hKey h ≠ s0)).map hKey = s.filter (fun t => t ≠ s0) := by
          rw [map_filter_key, h]
        obtain ⟨m1, m2, m3, m4, m5⟩ := ih (c.filter (fun h => hKey h ≠ s0))
          (s.filter (fun t => t ≠ s0)) hmap
        refine ⟨m1, m2.trans (List.filter_sublist c), m3.trans (List.filter_sublist s), ?_, ?_⟩
        · intro t ht hnt
          by_cases hts : t = s0
          · rw [hts]
            exact h2
          · exact m4 t (List.mem_filter.mpr ⟨ht, by simpa using hts⟩) hnt
        · intro hfalse t ht htsnap
          have hts : t ≠ s0 := by
            have := m3.subset ht
            simp only [List.mem_filter, decide_eq_true_eq] at this
            exact this.2
          rcases List.mem_cons.mp htsnap with rfl | hrest
          · exact absurd rfl hts
          · exact m5 hfalse t ht hrest
      | false =>
        have hred : ppInner k (s0 :: rest) c s = ppInner k rest c s := by
          simp [ppInner, h1, h2]
        rw [hred]
        obtain ⟨m1, m2, m3, m4, m5⟩ := ih c s h
        refine ⟨m1, m2, m3, m4, ?_⟩
        intro hfalse t ht htsnap
        rcases List.mem_cons.mp htsnap with rfl | hrest
        · exact ⟨h1, h2⟩
        · exact m5 hfalse t ht hrest

theorem ppInner_break (k : List Char) :
    ∀ (snap : List (List Char)) (c : List Heading) (s : List (List Char)),
    c.map hKey = s → snap.Sublist s → s.Nodup → (ppInner k snap c s).1 = true →
    ∃ t ∈ (ppInner k snap c s).2.2, fragB k t = true := by
  intro snap
  induction snap with
  | nil =>
    intro c s _ _ _ htrue
    simp [ppInner] at htrue
  | cons s0 rest ih =>
    intro c s h hsub hnd htrue
    cases h1 : fragB k s0 with
    | true =>
      simp only [ppInner, h1, if_true]
      exact ⟨s0, hsub.subset (List.mem_cons_self s0 rest), h1⟩
    | false =>
      have hrest : rest.Sublist s := (List.sublist_cons_self s0 rest).trans hsub
      cases h2 : fragB s0 k with
      | true =>
        have hred : ppInner k (s0 :: rest) c s =
            ppInner k rest (c.filter (fun h => hKey h ≠ s0)) (s.filter (fun t => t ≠ s0)) := by
          simp [ppInner, h1, h2]
        rw [hred] at htrue ⊢
        have hmap : (c.filter (fun h => hKey h ≠ s0)).map hKey = s.filter (fun t => t ≠ s0) := by
          rw [map_filter_key, h]
        have hs0rest : s0 ∉ rest := by
          have : (s0 :: rest).Nodup := hsub.nodup hnd
          exact (List.nodup_cons.mp this).1
        have hsubf : rest.Sublist (s.filter (fun t => t ≠ s0)) := by
          have heq : rest.filter (fun t => t ≠ s0) = rest := by
            apply List.filter_eq_self.mpr
            intro t ht
            simp only [ne_eq, decide_eq_true_eq]
            intro he
            exact hs0rest (he ▸ ht)
          rw [← heq]
          exact hrest.filter _
        exact ih _ _ hmap hsubf (hnd.filter _) htrue
      | false =>
        have hred : ppInner k (s0 :: rest) c s = ppInner k rest c s := by
          simp [ppInner, h1, h2]
        rw [hred] at htrue ⊢
        exact ih c s h hrest hnd htrue

theorem ppInner_hit (k : List Char) :
    ∀ (snap : List (List Char)) (c : List Heading) (s : List (List Char)),
    (∃ t ∈ snap, fragB k t = true) → (ppInner k snap c s).1 = true := by
  intro snap
  induction snap with
  | nil =>
    intro c s hw
    simp at hw
  | cons s0 rest ih =>
    intro c s hw
    obtain ⟨t, htmem, htfrag⟩ := hw
    cases h1 : fragB k s0 with
    | true => simp [ppInner, h1]
    | false =>
      have htrest : t ∈ rest := by
        rcases List.mem_cons.mp htmem with rfl | hr
        · rw [htfrag] at h1
          exact absurd h1 (by simp)
        · exact hr
      cases h2 : fragB s0 k with
      | true =>
        have hred : ppInner k (s0 :: rest) c s =
            ppInner k rest (c.filter (fun h => hKey h ≠ s0)) (s.filter (fun t => t ≠ s0)) := by
          simp [ppInner, h1, h2]
        rw [hred]
        exact ih _ _ ⟨t, htrest, htfrag⟩
      | false =>
        have hred : ppInner k (s0 :: rest) c s = ppInner k rest c s := by
          simp [ppInner, h1, h2]
        rw [hred]
        exact ih _ _ ⟨t, htrest, htfrag⟩

theorem ppInner_noop (k : List Char) :
    ∀ (snap : List (List Char)) (c : List Heading) (s : List (List Char)),
    (∀ t ∈ snap, fragB k t = false ∧ fragB t k = false) → ppInner k snap c s = (false, c, s) := by
  intro snap
  induction snap with
  | nil =>
    intro c s _
    rfl
  | cons s0 rest ih =>
    intro c s hall
    have h0 := hall s0 (List.mem_cons_self s0 rest)
    have hred : ppInner k (s0 :: rest) c s = ppInner k rest c s := by
      simp [ppInner, h0.1, h0.2]
    rw [hred]
    exact ih c s (fun t ht => hall t (List.mem_cons_of_mem s0 ht))

theorem ppFold_sublist : ∀ (l c : List Heading) (s : List (List Char)),
    c.map hKey = s → (ppFold l c s).Sublist (c ++ l) := by
  intro l
  induction l with
  | nil =>
    intro c s _
    rw [show ppFold [] c s = c from rfl, List.append_nil]
  | cons item rest ih =>
    intro c s hmap
    by_cases hk : hKey item ∈ s
    · rw [show ppFold (item :: rest) c s = ppFold rest c s by simp [ppFold, hk]]
      exact (ih c s hmap).trans (List.Sublist.append_left (List.sublist_cons_self item rest) c)
    · obtain ⟨m1, m2, m3, m4, m5⟩ := ppInner_spec (hKey item) s c s hmap
      by_cases hb : (ppInner (hKey item) s c s).1
      · rw [show ppFold (item :: rest) c s =
            ppFold rest (ppInner (hKey item) s c s).2.1 (ppInner (hKey item) s c s).2.2 by
          simp [ppFold, hk, hb]]
        refine (ih _ _ m1).trans ?_
        exact (m2.append (List.Sublist.refl rest)).trans
          (List.Sublist.append_left (List.sublist_cons_self item rest) c)
      · rw [show ppFold (item :: rest) c s =
            ppFold rest ((ppInner (hKey item) s c s).2.1 ++ [item])
              ((ppInner (hKey item) s c s).2.2 ++ [hKey item]) by
          simp [ppFold, hk, hb]]
        have hmap2 : ((ppInner (hKey item) s c s).2.1 ++ [item]).map hKey =
            (ppInner (hKey item) s c s).2.2 ++ [hKey item] := by
          simp [m1]
        refine (ih _ _ hmap2).trans ?_
        have he : ((ppInner (hKey item) s c s).2.1 ++ [item]) ++ rest =
            (ppInner (hKey item) s c s).2.1 ++ (item :: rest) := by
          simp
        rw [he]
        exact m2.append (List.Sublist.refl (item :: rest))

theorem ppFold_clean : ∀ (l c : List Heading) (s : List (List Char)),
    c.map hKey = s → s.Pairwise NotRelK →
    (ppFold l c s).Pairwise (fun a b => NotRelK (hKey a) (hKey b)) := by
  intro l
  induction l with
  | nil =>
    intro c s hmap hpw
    rw [show ppFold [] c s = c from rfl]
    rw [← hmap] at hpw
    exact List.pairwise_map.mp hpw
  | cons item rest ih =>
    intro c s hmap hpw
    by_cases hk : hKey item ∈ s
    · rw [show ppFold (item :: rest) c s = ppFold rest c s by simp [ppFold, hk]]
      exact ih c s hmap hpw
    · obtain ⟨m1, m2, m3, m4, m5⟩ := ppInner_spec (hKey item) s c s hmap
      by_cases hb : (ppInner (hKey item) s c s).1
      · rw [show ppFold (item :: rest) c s =
            ppFold rest (ppInner (hKey item) s c s).2.1 (ppInner (hKey item) s c s).2.2 by
          simp [ppFold, hk, hb]]
        exact ih _ _ m1 (hpw.sublist m3)
      · have hb' : (ppInner (hKey item) s c s).1 = false := by simpa using hb
        rw [show ppFold (item :: rest) c s =
            ppFold rest ((ppInner (hKey item) s c s).2.1 ++ [item])
              ((ppInner (hKey item) s c s).2.2 ++ [hKey item]) by
          simp [ppFold, hk, hb]]
        have hmap2 : ((ppInner (hKey item) s c s).2.1 ++ [item]).map hKey =
            (ppInner (hKey item) s c s).2.2 ++ [hKey item] := by
          simp [m1]
        have hcross : ∀ t ∈ (ppInner (hKey item) s c s).2.2, NotRelK t (hKey item) := by
          intro t ht
          have hts : t ∈ s := m3.subset ht
          have hcond := m5 hb' t ht hts
          exact ⟨fun he => hk (he ▸ hts), hcond.2, hcond.1⟩
        have hpw2 : ((ppInner (hKey item) s c s).2.2 ++ [hKey item]).Pairwise NotRelK := by
          rw [List.pairwise_append]
          refine ⟨hpw.sublist m3, by simp, ?_⟩
          intro a ha b hbm
          rcases List.mem_singleton.mp hbm with rfl
          exact hcross a ha
        exact ih _ _ hmap2 hpw2

theorem ppFold_id : ∀ (l c : List Heading) (s : List (List Char)),
    c.map hKey = s → (s ++ l.map hKey).Pairwise NotRelK → ppFold l c s = c ++ l := by
  intro l
  induction l with
  | nil =>
    intro c s _ _
    simp [ppFold]
  | cons item rest ih =>
    intro c s hmap hpw
    have hx := List.pairwise_append.mp hpw
    have hknotin : hKey item ∉ s := by
      intro hin
      have := hx.2.2 _ hin (hKey item) (by simp)
      exact this.1 rfl
    have hnoop : ppInner (hKey item) s c s = (false, c, s) := by
      apply ppInner_noop
      intro t ht
      have := hx.2.2 t ht (hKey item) (by simp)
      exact ⟨this.2.2, this.2.1⟩
    have hred : ppFold (item :: rest) c s = ppFold rest (c ++ [item]) (s ++ [hKey item]) := by
      simp [ppFold, hknotin, hnoop]
    rw [hred]
    have hmap2 : (c ++ [item]).map hKey = s ++ [hKey item] := by simp [hmap]
    have hpw2 : ((s ++ [hKey item]) ++ rest.map hKey).Pairwise NotRelK := by
      have he : (s ++ [hKey item]) ++ rest.map hKey = s ++ (hKey item :: rest.map hKey) := by
        simp
      rw [he]
      simpa using hpw
    rw [ih _ _ hmap2 hpw2]
    simp

theorem ppFold_first : ∀ (l c : List Heading) (s K : List (List Char)),
    c.map hKey = s → s.Pairwise NotRelK → Blocked K s →
    ∀ h ∈ ppFold l c s, h ∈ c ∨ (hKey h ∉ K ∧
      l.find? (fun x => decide (hKey x = hKey h)) = some h) := by
  intro l
  induction l with
  | nil =>
    intro c s K _ _ _ h hh
    rw [show ppFold [] c s = c from rfl] at hh
    exact Or.inl hh
  | cons item rest ih =>
    intro c s K hmap hpw hbl h hh
    have hnd : s.Nodup := hpw.imp (fun hr => hr.1)
    by_cases hk : hKey item ∈ s
    · rw [show ppFold (item :: rest) c s = ppFold rest c s by simp [ppFold, hk]] at hh
      have hbl2 : Blocked (hKey item :: K) s := by
        intro k' hk'
        rcases List.mem_cons.mp hk' with rfl | hkK
        · exact Or.inl hk
        · exact hbl k' hkK
      rcases ih c s (hKey item :: K) hmap hpw hbl2 h hh with hc | ⟨hnotK, hfind⟩
      · exact Or.inl hc
      · refine Or.inr ⟨fun hK => hnotK (List.mem_cons_of_mem _ hK), ?_⟩
        have hne : ¬ (hKey item = hKey h) := fun he => hnotK (he ▸ List.mem_cons_self _ _)
        rw [List.find?_cons_of_neg, hfind]
        simpa using hne
    · obtain ⟨m1, m2, m3, m4, m5⟩ := ppInner_spec (hKey item) s c s hmap
      by_cases hb : (ppInner (hKey item) s c s).1
      · rw [show ppFold (item :: rest) c s =
            ppFold rest (ppInner (hKey item) s c s).2.1 (ppInner (hKey item) s c s).2.2 by
          simp [ppFold, hk, hb]] at hh
        obtain ⟨t0, ht0mem, ht0frag⟩ :=
          ppInner_break (hKey item) s c s hmap (List.Sublist.refl s) hnd hb
        have hbl2 : Blocked (hKey item :: K) (ppInner (hKey item) s c s).2.2 := by
          intro k' hk'
          rcases List.mem_cons.mp hk' with rfl | hkK
          · exact Or.inr ⟨t0, ht0mem, ht0frag⟩
          · rcases hbl k' hkK with hin | ⟨t, htmem, htfrag⟩
            · by_cases hsurv : k' ∈ (ppInner (hKey item) s c s).2.2
              · exact Or.inl hsurv
              · exact Or.inr ⟨t0, ht0mem, fragB_trans (m4 k' hin hsurv) ht0frag⟩
            · by_cases hsurv : t ∈ (ppInner (hKey item) s c s).2.2
              · exact Or.inr ⟨t, hsurv, htfrag⟩
              · exact Or.inr ⟨t0, ht0mem,
                  fragB_trans (fragB_trans htfrag (m4 t htmem hsurv)) ht0frag⟩
        rcases ih _ _ (hKey item :: K) m1 (hpw.sublist m3) hbl2 h hh with hc | ⟨hnotK, hfind⟩
        · exact Or.inl (m2.subset hc)
        · refine Or.inr ⟨fun hK => hnotK (List.mem_cons_of_mem _ hK), ?_⟩
          have hne : ¬ (hKey item = hKey h) := fun he => hnotK (he ▸ List.mem_cons_self _ _)
          rw [List.find?_cons_of_neg, hfind]
          simpa using hne
      · have hb' : (ppInner (hKey item) s c s).1 = false := by simpa using hb
        rw [show ppFold (item :: rest) c s =
            ppFold rest ((ppInner (hKey item) s c s).2.1 ++ [item])
              ((ppInner (hKey item) s c s).2.2 ++ [hKey item]) by
          simp [ppFold, hk, hb]] at hh
        have hkK : hKey item ∉ K := by
          intro hin
          rcases hbl _ hin with hins | ⟨t, htmem, htfrag⟩
          · exact hk hins
          · have hhit := ppInner_hit (hKey item) s c s ⟨t, htmem, htfrag⟩
            rw [hhit] at hb'
            simp at hb'
        have hmap2 : ((ppInner (hKey item) s c s).2.1 ++ [item]).map hKey =
            (ppInner (hKey item) s c s).2.2 ++ [hKey item] := by
          simp [m1]
        have hcross : ∀ t ∈ (ppInner (hKey item) s c s).2.2, NotRelK t (hKey item) := by
          intro t ht
          have hts : t ∈ s := m3.subset ht
          have hcond := m5 hb' t ht hts
          exact ⟨fun he => hk (he ▸ hts), hcond.2, hcond.1⟩
        have hpw2 : ((ppInner (hKey item) s c s).2.2 ++ [hKey item]).Pairwise NotRelK := by
          rw [List.pairwise_append]
          refine ⟨hpw.sublist m3, by simp, ?_⟩
          intro a ha b hbm
          rcases List.mem_singleton.mp hbm with rfl
          exact hcross a ha
        have hbl2 : Blocked (hKey item :: K)
            ((ppInner (hKey item) s c s).2.2 ++ [hKey item]) := by
          intro k' hk'
          rcases List.mem_cons.mp hk' with rfl | hkK'
          · exact Or.inl (List.mem_append.mpr (Or.inr (by simp)))
          · rcases hbl k' hkK' with hin | ⟨t, htmem, htfrag⟩
            · by_cases hsurv : k' ∈ (ppInner (hKey item) s c s).2.2
              · exact Or.inl (List.mem_append.mpr (Or.inl hsurv))
              · exact Or.inr ⟨hKey item, by simp, m4 k' hin hsurv⟩
            · by_cases hsurv : t ∈ (ppInner (hKey item) s c s).2.2
              · exact Or.inr ⟨t, List.mem_append.mpr (Or.inl hsurv), htfrag⟩
              · exact Or.inr ⟨hKey item, by simp, fragB_trans htfrag (m4 t htmem hsurv)⟩
        rcases ih _ _ (hKey item :: K) hmap2 hpw2 hbl2 h hh with hc | ⟨hnotK, hfind⟩
        · rcases List.mem_append.mp hc with hc2 | hitem
          · exact Or.inl (m2.subset hc2)
          · have hhe : h = item := by simpa using hitem
            subst hhe
            refine Or.inr ⟨hkK, ?_⟩
            rw [List.find?_cons_of_pos]
            simp
        · refine Or.inr ⟨fun hK => hnotK (List.mem_cons_of_mem _ hK), ?_⟩
          have hne : ¬ (hKey item = hKey h) := fun he => hnotK (he ▸ List.mem_cons_self _ _)
          rw [List.find?_cons_of_neg, hfind]
          simpa using hne

/-! ### Post-processor corollaries -/

theorem post_process_ne (l : List Heading) (h : l ≠ []) :
    post_process_outline l = ppFold (sortOutline l) [] [] := by
  unfold post_process_outline
  rw [if_neg h]

theorem post_process_sublist (l : List Heading) :
    (post_process_outline l).Sublist (sortOutline l) := by
  by_cases he : l = []
  · subst he
    simp [post_process_outline]
  · rw [post_process_ne l he]
    simpa using ppFold_sublist (sortOutline l) [] [] rfl

theorem sortOutline_sorted (l : List Heading) : (sortOutline l).Sorted rPage :=
  List.sorted_insertionSort rPage l

theorem post_process_sorted (l : List Heading) : (post_process_outline l).Sorted rPage :=
  (sortOutline_sorted l).sublist (post_process_sublist l)

theorem mem_post_process {l : List Heading} {h : Heading}
    (hh : h ∈ post_process_outline l) : h ∈ l := by
  have h1 : h ∈ sortOutline l := (post_process_sublist l).subset hh
  exact ((List.perm_insertionSort rPage l).mem_iff).mp h1

theorem post_process_clean (l : List Heading) :
    (post_process_outline l).Pairwise (fun a b => NotRelK (hKey a) (hKey b)) := by
  by_cases he : l = []
  · subst he
    simp [post_process_outline]
  · rw [post_process_ne l he]
    exact ppFold_clean (sortOutline l) [] [] rfl List.Pairwise.nil

theorem post_process_idem (l : List Heading) :
    post_process_outline (post_process_outline l) = post_process_outline l := by
  by_cases ho : post_process_outline l = []
  · rw [ho]
    simp [post_process_outline]
  · have hsorteq : sortOutline (post_process_outline l) = post_process_outline l :=
      (post_process_sorted l).insertionSort_eq
    have hkeys : (([] : List (List Char)) ++
        (post_process_outline l).map hKey).Pairwise NotRelK := by
      simpa using List.pairwise_map.mpr (post_process_clean l)
    rw [post_process_ne _ ho, hsorteq, ppFold_id (post_process_outline l) [] [] rfl hkeys]
    simp

theorem post_process_first (l : List Heading) :
    ∀ h ∈ post_process_outline l,
      (sortOutline l).find? (fun x => decide (hKey x = hKey h)) = some h := by
  intro h hh
  by_cases he : l = []
  · subst he
    simp [post_process_outline] at hh
  · rw [post_process_ne l he] at hh
    rcases ppFold_first (sortOutline l) [] [] [] rfl List.Pairwise.nil
        (by intro k hk; simp at hk) h hh with hc | ⟨_, hfind⟩
    · simp at hc
    · exact hfind

/-! ### Classifier lemmas -/

theorem classify_nodedup_props (ctx : Ctx) (text : List Char) (size y_pos : ℚ)
    (page flags : ℕ) (h0 : Heading)
    (hc : classify_nodedup ctx text size y_pos page flags = some h0) :
    h0.text = text ∧
    (ctx.document_title ≠ [] → is_title_duplicate ctx.document_title text = false) := by
  unfold classify_nodedup at hc
  by_cases h1 : (ctx.document_title ≠ [] ∧ is_title_duplicate ctx.document_title text = true)
  · rw [if_pos h1] at hc
    exact absurd hc (by simp)
  · rw [if_neg h1] at hc
    have htitle : ctx.document_title ≠ [] →
        is_title_duplicate ctx.document_title text = false := by
      intro ht
      by_cases hd : is_title_duplicate ctx.document_title text = true
      · exact absurd ⟨ht, hd⟩ h1
      · simpa using hd
    by_cases h2 : (titleEcho ctx.title_size size = true ∧ page > 1 ∧
        ¬ looks_like_section_title text = true)
    · rw [if_pos h2] at hc
      exact absurd hc (by simp)
    · rw [if_neg h2] at hc
      cases hd : determine_heading_level size flags ctx.fa with
      | none =>
        rw [hd] at hc
        exact absurd hc (by simp)
      | some lvl =>
        rw [hd] at hc
        dsimp only at hc
        by_cases h3 : (¬ is_heading_like ctx.nlp text = true)
        · rw [if_pos h3] at hc
          exact absurd hc (by simp)
        · rw [if_neg h3] at hc
          have := Option.some.inj hc
          rw [← this]
          exact ⟨rfl, htitle⟩

theorem mem_classifyAll (ctx : Ctx) :
    ∀ (ls : List Line) (seen : List SeenKey) (h : Heading), h ∈ classifyAll ctx ls seen →
    pyStrip h.text = h.text ∧
    (ctx.document_title ≠ [] → is_title_duplicate ctx.document_title h.text = false) := by
  intro ls
  induction ls with
  | nil =>
    intro seen h hh
    simp [classifyAll] at hh
  | cons l rest ih =>
    intro seen h hh
    by_cases hg : (pyStrip l.text ≠ [] ∧ is_valid_heading_text (pyStrip l.text) = true)
    · cases hc : classify_nodedup ctx (pyStrip l.text) l.size l.y l.page l.flags with
      | none =>
        rw [show classifyAll ctx (l :: rest) seen = classifyAll ctx rest seen by
          simp [classifyAll, hg, classify_heading, hc]] at hh
        exact ih seen h hh
      | some h0 =>
        by_cases hs : (h0.level, pyLower h0.text) ∈ seen
        · rw [show classifyAll ctx (l :: rest) seen = classifyAll ctx rest seen by
            simp [classifyAll, hg, classify_heading, hc, hs]] at hh
          exact ih seen h hh
        · rw [show classifyAll ctx (l :: rest) seen =
              h0 :: classifyAll ctx rest (seen ++ [(h0.level, pyLower h0.text)]) by
            simp [classifyAll, hg, classify_heading, hc, hs]] at hh
          rcases List.mem_cons.mp hh with rfl | hrest
          · obtain ⟨htext, htitle⟩ := classify_nodedup_props ctx _ _ _ _ _ _ hc
            rw [htext]
            exact ⟨pyStrip_idem l.text, htitle⟩
          · exact ih _ h hrest
    · rw [show classifyAll ctx (l :: rest) seen = classifyAll ctx rest seen by
        simp [classifyAll, hg]] at hh
      exact ih seen h hh

theorem mem_runOutline {ctx : Ctx} {lines : List Line} {h : Heading}
    (hh : h ∈ runOutline ctx lines) :
    pyStrip h.text = h.text ∧
    (ctx.document_title ≠ [] → is_title_duplicate ctx.document_title h.text = false) :=
  mem_classifyAll ctx lines [] h (mem_post_process hh)

theorem classifyAll_eq_firstWins (ctx : Ctx) :
    ∀ (ls : List Line) (seen : List SeenKey),
    classifyAll ctx ls seen = firstWins seen (preCandidates ctx ls) := by
  intro ls
  induction ls with
  | nil =>
    intro seen
    rfl
  | cons l rest ih =>
    intro seen
    by_cases hg : (pyStrip l.text ≠ [] ∧ is_valid_heading_text (pyStrip l.text) = true)
    · cases hc : classify_nodedup ctx (pyStrip l.text) l.size l.y l.page l.flags with
      | none =>
        rw [show classifyAll ctx (l :: rest) seen = classifyAll ctx rest seen by
          simp [classifyAll, hg, classify_heading, hc]]
        rw [show preCandidates ctx (l :: rest) = preCandidates ctx rest by
          simp [preCandidates, lineCandidate, hg, hc]]
        exact ih seen
      | some h0 =>
        have h2 : preCandidates ctx (l :: rest) = h0 :: preCandidates ctx rest := by
          simp [preCandidates, lineCandidate, hg, hc]
        by_cases hs : (h0.level, pyLower h0.text) ∈ seen
        · rw [show classifyAll ctx (l :: rest) seen = classifyAll ctx rest seen by
            simp [classifyAll, hg, classify_heading, hc, hs]]
          rw [h2, ih seen]
          simp [firstWins, hs]
        · rw [show classifyAll ctx (l :: rest) seen =
              h0 :: classifyAll ctx rest (seen ++ [(h0.level, pyLower h0.text)]) by
            simp [classifyAll, hg, classify_heading, hc, hs]]
          rw [h2, ih (seen ++ [(h0.level, pyLower h0.text)])]
          simp [firstWins, hs]
    · rw [show classifyAll ctx (l :: rest) seen = classifyAll ctx rest seen by
        simp [classifyAll, hg]]
      rw [show preCandidates ctx (l :: rest) = preCandidates ctx rest by
        simp [preCandidates, lineCandidate, hg]]
      exact ih seen

/-! ### Font-analysis lemmas -/

theorem foldl_choice_mem (g : ℚ → ℚ → ℚ) (hg : ∀ b x, g b x = b ∨ g b x = x) :
    ∀ (l : List ℚ) (b : ℚ), l.foldl g b ∈ b :: l := by
  intro l
  induction l with
  | nil =>
    intro b
    simp
  | cons x xs ih =>
    intro b
    rw [List.foldl_cons]
    rcases hg b x with he | he <;> rw [he]
    · rcases List.mem_cons.mp (ih b) with h | h
      · rw [h]
        exact List.mem_cons_self b (x :: xs)
      · exact List.mem_cons_of_mem b (List.mem_cons_of_mem x h)
    · exact List.mem_cons_of_mem b (ih x)

theorem pyDedupA_sub : ∀ (l seen : List ℚ) (x : ℚ), x ∈ pyDedupA seen l → x ∈ l := by
  intro l
  induction l with
  | nil =>
    intro seen x hx
    simp [pyDedupA] at hx
  | cons y ys ih =>
    intro seen x hx
    unfold pyDedupA at hx
    by_cases hy : y ∈ seen
    · rw [if_pos hy] at hx
      exact List.mem_cons_of_mem y (ih seen x hx)
    · rw [if_neg hy] at hx
      rcases List.mem_cons.mp hx with rfl | hx2
      · exact List.mem_cons_self x ys
      · exact List.mem_cons_of_mem y (ih (y :: seen) x hx2)

theorem pyDedupFirst_ne (l : List ℚ) (hl : l ≠ []) : pyDedupFirst l ≠ [] := by
  cases l with
  | nil => exact absurd rfl hl
  | cons x xs =>
    simp [pyDedupFirst, pyDedupA]

theorem mostCommon_mem (l : List ℚ) (hl : l ≠ []) : mostCommon l ∈ l := by
  unfold mostCommon
  cases hd : pyDedupFirst l with
  | nil => exact absurd hd (pyDedupFirst_ne l hl)
  | cons b rest =>
    have hg : ∀ u x, (if countOcc u l < countOcc x l then x else u) = u ∨
        (if countOcc u l < countOcc x l then x else u) = x := by
      intro u x
      by_cases hc : countOcc u l < countOcc x l
      · exact Or.inr (if_pos hc)
      · exact Or.inl (if_neg hc)
    have hmem := foldl_choice_mem _ hg rest b
    have hmem2 : rest.foldl (fun best x => if countOcc best l < countOcc x l then x else best) b
        ∈ pyDedupFirst l := by
      rw [hd]
      exact hmem
    exact pyDedupA_sub l [] _ hmem2

theorem mem_samplePages (doc : List Page) (p : Page) (hp : p ∈ samplePages doc) : p ∈ doc := by
  unfold samplePages at hp
  rw [List.mem_filterMap] at hp
  obtain ⟨i, _, hi⟩ := hp
  exact List.get?_mem hi

theorem mem_collectSizes (doc : List Page) (x : ℚ) (hx : x ∈ collectSizes doc) :
    ∃ p ∈ doc, ∃ sp ∈ p.spans, x = sp.size := by
  unfold collectSizes at hx
  rw [List.mem_flatMap] at hx
  obtain ⟨p, hp, hmem⟩ := hx
  rw [List.mem_map] at hmem
  obtain ⟨sp, hsp, hxe⟩ := hmem
  rw [List.mem_filter] at hsp
  exact ⟨p, mem_samplePages doc p hp, sp, hsp.1, hxe.symm⟩

/-! ### Case lemmas for lowercase text -/

theorem pyIsUpper_lower (cs : List Char)
    (hlow : ∃ c ∈ cs, c.isLower = true) : pyIsUpper cs = false := by
  obtain ⟨c, hc, hcl⟩ := hlow
  unfold pyIsUpper
  have : cs.all (fun c => !c.isLower) = false := by
    rw [List.all_eq_false]
    exact ⟨c, hc, by simp [hcl]⟩
  simp [this]

theorem pyIsTitleGo_lower (seen : Bool) :
    ∀ (cs : List Char), (∀ c ∈ cs, ¬ c.isUpper = true) → (∃ c ∈ cs, c.isLower = true) →
    pyIsTitleGo false seen cs = false := by
  intro cs
  induction cs with
  | nil =>
    intro _ hlow
    simp at hlow
  | cons a rest ih =>
    intro hnoup hlow
    have hau : ¬ a.isUpper = true := hnoup a (List.mem_cons_self a rest)
    unfold pyIsTitleGo
    rw [if_neg hau]
    by_cases hal : a.isLower = true
    · rw [if_pos hal]
      rfl
    · rw [if_neg hal]
      apply ih
      · intro c hc
        exact hnoup c (List.mem_cons_of_mem a hc)
      · obtain ⟨c, hc, hcl⟩ := hlow
        rcases List.mem_cons.mp hc with rfl | hcr
        · exact absurd hcl hal
        · exact ⟨c, hcr, hcl⟩

theorem pyIsTitle_lower (cs : List Char) (hnoup : ∀ c ∈ cs, ¬ c.isUpper = true)
    (hlow : ∃ c ∈ cs, c.isLower = true) : pyIsTitle cs = false :=
  pyIsTitleGo_lower false cs hnoup hlow

/-! ## Claim theorems -/

/-- Claim C6: for every list of heading candidates, applying the Outline
Post-Processor twice yields the same result as applying it once — running
it again on its own output drops no further items and changes no ordering. -/
theorem c6_post_process_idempotent (l : List Heading) :
    post_process_outline (post_process_outline l) = post_process_outline l :=
  post_process_idem l

/-- Claim C9: whenever sampling yields no surviving font-size spans, the
Font Statistics Analyzer returns (rather than failing) the fixed default
analysis with body size 12 and thresholds 18/16/14/13. -/
theorem c9_empty_sampling_defaults (doc : List Page) (he : collectSizes doc = []) :
    analyze_document_fonts doc = get_default_thresholds ∧
    get_default_thresholds.base_size = 12 ∧
    get_default_thresholds.h1_threshold = 18 ∧
    get_default_thresholds.h2_threshold = 16 ∧
    get_default_thresholds.h3_threshold = 14 ∧
    get_default_thresholds.h4_threshold = 13 := by
  refine ⟨?_, rfl, rfl, rfl, rfl, rfl⟩
  unfold analyze_document_fonts
  rw [if_pos he]

/-- Witness for C9: a document whose only span lies in the header margin
has no surviving sampled sizes, and the analyzer returns the defaults. -/
theorem c9_witness :
    collectSizes docC9 = [] ∧ analyze_document_fonts docC9 = get_default_thresholds :=
  ⟨by decide, (c9_empty_sampling_defaults docC9 (by decide)).1⟩

/-- Claim C5 (refuted — code bug): the `^Confidential` / `^Draft` /
`All rights reserved` exclusion patterns are matched against the lowercased
text, where their capital letters can never match, so lines beginning with
`Confidential` or `Draft` (in any letter case) pass the text-validity
screening; the page-number, bare-number and date exclusions do work. -/
theorem c5_confidential_draft_not_rejected :
    is_valid_heading_text "Confidential financial summary".data = true ∧
    is_valid_heading_text "Draft proposal overview".data = true ∧
    is_valid_heading_text "confidential financial summary".data = true ∧
    is_valid_heading_text "page 12".data = false ∧
    is_valid_heading_text "March 5, 2024".data = false ∧
    is_valid_heading_text "20240".data = false := by
  refine ⟨?_, ?_, ?_, ?_, ?_, ?_⟩ <;> decide

/-- Claim C1 (refuted — code bug): the post-processor's sort key reads
`y_pos` from candidate dictionaries that never carry that key, so within a
page the outline stays in scan order rather than ascending vertical order.
In `linesC1` the first-scanned line sits at y = 500 and the second at
y = 100 on the same page, yet the final outline keeps scan order instead
of the claimed (page, originY) order. -/
theorem c1_outline_keeps_scan_order_not_y :
    runOutline ctxC1 linesC1 =
      [⟨"H1", "Introduction Alpha".data, 1⟩, ⟨"H1", "Background Beta".data, 1⟩] ∧
    linesC1.map Line.y = [500, 100] ∧ linesC1.map Line.page = [1, 1] := by
  exact ⟨by decide, by decide, by decide⟩

/-- Claim C2: in every document-processing run no two final-outline entries
share the same `(level, lowercased text)` pair, and the classifier emits,
among classified candidates sharing that pair, exactly the first one in
page-scan order (its output equals the first-occurrence filter of the
pre-dedup candidate list). -/
theorem c2_level_text_dedup (ctx : Ctx) (lines : List Line) :
    (runOutline ctx lines).Pairwise
      (fun a b => ¬ (a.level = b.level ∧ pyLower a.text = pyLower b.text)) ∧
    classifyAll ctx lines [] = firstWins [] (preCandidates ctx lines) := by
  constructor
  · have hclean : (runOutline ctx lines).Pairwise
        (fun a b => NotRelK (hKey a) (hKey b)) :=
      post_process_clean (classifyAll ctx lines [])
    refine List.Pairwise.imp_of_mem ?_ hclean
    intro a b ha hb hr hab
    apply hr.1
    have hsa := (mem_runOutline ha).1
    have hsb := (mem_runOutline hb).1
    show pyLower (pyStrip a.text) = pyLower (pyStrip b.text)
    rw [hsa, hsb]
    exact hab.2
  · exact classifyAll_eq_firstWins ctx lines []

/-- Claim C10: the post-processor deduplicates by stripped lowercased text
alone, ignoring the heading level: no two final entries share that key,
and every kept entry is the first entry of the sorted candidate list
bearing its key. -/
theorem c10_text_only_dedup_first_kept (ctx : Ctx) (lines : List Line) :
    (runOutline ctx lines).Pairwise (fun a b => hKey a ≠ hKey b) ∧
    ∀ h ∈ runOutline ctx lines,
      (sortOutline (classifyAll ctx lines [])).find?
        (fun x => decide (hKey x = hKey h)) = some h := by
  constructor
  · exact (post_process_clean (classifyAll ctx lines [])).imp (fun hr => hr.1)
  · intro h hh
    exact post_process_first (classifyAll ctx lines []) h hh

/-- Witness for C10: the same text classified `H1` on page 1 and `H2` on
page 2 collapses to the single page-1 entry — the sorted-first occurrence
of its text key, levels notwithstanding. -/
theorem c10_witness :
    hC10 ∈ runOutline ctxC10 linesC10 ∧
    (sortOutline (classifyAll ctxC10 linesC10 [])).find?
      (fun x => decide (hKey x = hKey hC10)) = some hC10 :=
  ⟨by decide, (c10_text_only_dedup_first_kept ctxC10 linesC10).2 hC10 (by decide)⟩

/-- Claim C4 (refuted — corrected): with the 6-character established title
`report` (the filename fallback), the accepted outline entry
`Annual Report 2024 Overview` contains the title as a substring of its
lowercased text — the containment/similarity exclusions only run when the
title is longer than 10 characters. -/
theorem c4_short_title_counterexample :
    runOutline ctxC4 linesC4 = [⟨"H1", "Annual Report 2024 Overview".data, 1⟩] ∧
    ctxC4.document_title ≠ [] ∧
    isInfixB ctxC4.document_title
      (pyLower (pyStrip "Annual Report 2024 Overview".data)) = true := by
  exact ⟨by decide, by decide, by decide⟩

/-- Claim C4 as amended: for every run with a non-empty established title,
no accepted entry's stripped lowercased text equals the title; and when
the title is longer than 10 characters, additionally no entry's text is a
substring of the title or contains it, and the Jaccard word-overlap
similarity with the title is at most 0.7. -/
theorem c4_title_exclusion_amended (ctx : Ctx) (lines : List Line)
    (htitle : ctx.document_title ≠ []) :
    ∀ h ∈ runOutline ctx lines,
      pyLower (pyStrip h.text) ≠ ctx.document_title ∧
      (10 < ctx.document_title.length →
        isInfixB (pyLower (pyStrip h.text)) ctx.document_title = false ∧
        isInfixB ctx.document_title (pyLower (pyStrip h.text)) = false ∧
        text_similarity (pyLower (pyStrip h.text)) ctx.document_title ≤ 0.7) := by
  intro h hh
  have hdup := (mem_runOutline hh).2 htitle
  unfold is_title_duplicate at hdup
  by_cases he : pyLower (pyStrip h.text) = ctx.document_title
  · rw [if_pos he] at hdup
    exact absurd hdup (by simp)
  · rw [if_neg he] at hdup
    refine ⟨he, ?_⟩
    intro hlen
    rw [if_pos hlen] at hdup
    simp only [Bool.or_eq_false_iff, decide_eq_false_iff_not, not_lt] at hdup
    exact ⟨hdup.1.1, hdup.1.2, hdup.2⟩

/-- Witness for C4 as amended: a run with the 23-character title
`annual financial report` accepts `Introduction Section`, whose key is
neither equal to, contained in, containing, nor more than 0.7-similar to
the title. -/
theorem c4_amended_witness :
    ctxC4W.document_title ≠ [] ∧ 10 < ctxC4W.document_title.length ∧
    hC4W ∈ runOutline ctxC4W linesC4W ∧
    pyLower (pyStrip hC4W.text) ≠ ctxC4W.document_title ∧
    isInfixB (pyLower (pyStrip hC4W.text)) ctxC4W.document_title = false ∧
    isInfixB ctxC4W.document_title (pyLower (pyStrip hC4W.text)) = false ∧
    text_similarity (pyLower (pyStrip hC4W.text)) ctxC4W.document_title ≤ 0.7 := by
  have hm : hC4W ∈ runOutline ctxC4W linesC4W := by decide
  have h := c4_title_exclusion_amended ctxC4W linesC4W (by decide) hC4W hm
  have h2 := h.2 (by decide)
  exact ⟨by decide, by decide, hm, h.1, h2.1, h2.2.1, h2.2.2⟩

/-- Claim C3: for every font analysis derived from any document with
nonnegative span sizes (including the empty-sample default), the four
thresholds are monotonically non-increasing and bounded below by the body
size: h1 ≥ h2 ≥ h3 ≥ h4 ≥ bodySize. -/
theorem c3_thresholds_monotone (doc : List Page)
    (hpos : ∀ p ∈ doc, ∀ sp ∈ p.spans, 0 ≤ sp.size) :
    (analyze_document_fonts doc).h2_threshold ≤ (analyze_document_fonts doc).h1_threshold ∧
    (analyze_document_fonts doc).h3_threshold ≤ (analyze_document_fonts doc).h2_threshold ∧
    (analyze_document_fonts doc).h4_threshold ≤ (analyze_document_fonts doc).h3_threshold ∧
    (analyze_document_fonts doc).base_size ≤ (analyze_document_fonts doc).h4_threshold := by
  by_cases he : collectSizes doc = []
  · rw [show analyze_document_fonts doc = get_default_thresholds by
      unfold analyze_document_fonts; rw [if_pos he]]
    refine ⟨by norm_num [get_default_thresholds], by norm_num [get_default_thresholds],
      by norm_num [get_default_thresholds], by norm_num [get_default_thresholds]⟩
  · have hbody : 0 ≤ mostCommon (collectSizes doc) := by
      obtain ⟨p, hp, sp, hsp, hx⟩ := mem_collectSizes doc _ (mostCommon_mem _ he)
      rw [hx]
      exact hpos p hp sp hsp
    have hsorted := List.sorted_insertionSort rGE (pyDedupFirst (collectSizes doc))
    rcases hus : List.insertionSort rGE (pyDedupFirst (collectSizes doc)) with
      _ | ⟨a1, _ | ⟨a2, _ | ⟨a3, _ | ⟨a4, t⟩⟩⟩⟩
    · rw [show analyze_document_fonts doc =
          ⟨mostCommon (collectSizes doc), mostCommon (collectSizes doc) * 2.0,
           mostCommon (collectSizes doc) * 1.6, mostCommon (collectSizes doc) * 1.3,
           mostCommon (collectSizes doc) * 1.1, [], sizeDist (collectSizes doc)⟩ by
        simp only [analyze_document_fonts, hus, if_neg he]]
      exact ⟨by nlinarith, by nlinarith, by nlinarith, by nlinarith⟩
    · rw [show analyze_document_fonts doc =
          ⟨mostCommon (collectSizes doc), mostCommon (collectSizes doc) * 2.0,
           mostCommon (collectSizes doc) * 1.6, mostCommon (collectSizes doc) * 1.3,
           mostCommon (collectSizes doc) * 1.1, [a1], sizeDist (collectSizes doc)⟩ by
        simp only [analyze_document_fonts, hus, if_neg he]]
      exact ⟨by nlinarith, by nlinarith, by nlinarith, by nlinarith⟩
    · rw [show analyze_document_fonts doc =
          ⟨mostCommon (collectSizes doc), mostCommon (collectSizes doc) * 2.0,
           mostCommon (collectSizes doc) * 1.6, mostCommon (collectSizes doc) * 1.3,
           mostCommon (collectSizes doc) * 1.1, [a1, a2], sizeDist (collectSizes doc)⟩ by
        simp only [analyze_document_fonts, hus, if_neg he]]
      exact ⟨by nlinarith, by nlinarith, by nlinarith, by nlinarith⟩
    · rw [show analyze_document_fonts doc =
          ⟨mostCommon (collectSizes doc), mostCommon (collectSizes doc) * 2.0,
           mostCommon (collectSizes doc) * 1.6, mostCommon (collectSizes doc) * 1.3,
           mostCommon (collectSizes doc) * 1.1, [a1, a2, a3], sizeDist (collectSizes doc)⟩ by
        simp only [analyze_document_fonts, hus, if_neg he]]
      exact ⟨by nlinarith, by nlinarith, by nlinarith, by nlinarith⟩
    · rw [hus] at hsorted
      have h12 : a2 ≤ a1 := List.rel_of_sorted_cons hsorted a2 (by simp)
      have h23 : a3 ≤ a2 := List.rel_of_sorted_cons hsorted.of_cons a3 (by simp)
      have h34 : a4 ≤ a3 := List.rel_of_sorted_cons hsorted.of_cons.of_cons a4 (by simp)
      rw [show analyze_document_fonts doc =
          ⟨mostCommon (collectSizes doc),
           max (mostCommon (collectSizes doc) * 2.0) a1,
           max (mostCommon (collectSizes doc) * 1.6) a2,
           max (mostCommon (collectSizes doc) * 1.3) a3,
           max (mostCommon (collectSizes doc) * 1.1) a4,
           a1 :: a2 :: a3 :: a4 :: t, sizeDist (collectSizes doc)⟩ by
        simp only [analyze_document_fonts, hus, if_neg he]]
      refine ⟨max_le_max (by nlinarith) h12, max_le_max (by nlinarith) h23,
        max_le_max (by nlinarith) h34, le_max_of_le_left (by nlinarith)⟩

/-- Witness for C3: the analysis of the concrete one-page document `docC3`
(20/12/12-pt spans) satisfies the monotone-threshold chain. -/
theorem c3_witness :
    (∀ p ∈ docC3, ∀ sp ∈ p.spans, 0 ≤ sp.size) ∧
    ((analyze_document_fonts docC3).h2_threshold ≤ (analyze_document_fonts docC3).h1_threshold ∧
     (analyze_document_fonts docC3).h3_threshold ≤ (analyze_document_fonts docC3).h2_threshold ∧
     (analyze_document_fonts docC3).h4_threshold ≤ (analyze_document_fonts docC3).h3_threshold ∧
     (analyze_document_fonts docC3).base_size ≤ (analyze_document_fonts docC3).h4_threshold) :=
  ⟨by decide, c3_thresholds_monotone docC3 (by decide)⟩

/-- Claim C7: level assignment scans thresholds largest-first (`H1` at
`size ≥ h1`, else `H2` at `≥ h2`, else `H3`, else `H4`); below all four
thresholds the result is `H4` exactly when bold flag bit 4 is set and
`size ≥ 1.05 × bodySize`, and `none` otherwise; in particular a 22-pt line
with `h1 = 24, h2 = 20` is `H2`, not `H1`. -/
theorem c7_level_assignment (size : ℚ) (flags : ℕ) (fa : FontAnalysis) :
    (size ≥ fa.h1_threshold → determine_heading_level size flags fa = some "H1") ∧
    (size < fa.h1_threshold → size ≥ fa.h2_threshold →
      determine_heading_level size flags fa = some "H2") ∧
    (size < fa.h1_threshold → size < fa.h2_threshold → size ≥ fa.h3_threshold →
      determine_heading_level size flags fa = some "H3") ∧
    (size < fa.h1_threshold → size < fa.h2_threshold → size < fa.h3_threshold →
      size ≥ fa.h4_threshold → determine_heading_level size flags fa = some "H4") ∧
    (size < fa.h1_threshold → size < fa.h2_threshold → size < fa.h3_threshold →
      size < fa.h4_threshold →
      determine_heading_level size flags fa =
        (if flags &&& 16 ≠ 0 ∧ size ≥ fa.base_size * 1.05 then some "H4" else none)) ∧
    determine_heading_level 22 0 faC7 = some "H2" := by
  refine ⟨?_, ?_, ?_, ?_, ?_, by decide⟩
  · intro h1
    unfold determine_heading_level
    rw [if_pos h1]
  · intro h1 h2
    unfold determine_heading_level
    rw [if_neg (not_le.mpr h1), if_pos h2]
  · intro h1 h2 h3
    unfold determine_heading_level
    rw [if_neg (not_le.mpr h1), if_neg (not_le.mpr h2), if_pos h3]
  · intro h1 h2 h3 h4
    unfold determine_heading_level
    rw [if_neg (not_le.mpr h1), if_neg (not_le.mpr h2), if_neg (not_le.mpr h3), if_pos h4]
  · intro h1 h2 h3 h4
    unfold determine_heading_level
    rw [if_neg (not_le.mpr h1), if_neg (not_le.mpr h2), if_neg (not_le.mpr h3),
      if_neg (not_le.mpr h4)]

/-- Witness for C7: 30 pt clears `h1 = 24` and is assigned `H1`; the 22-pt
scenario line is assigned `H2`. -/
theorem c7_witness :
    determine_heading_level 30 0 faC7 = some "H1" ∧
    determine_heading_level 22 0 faC7 = some "H2" :=
  ⟨(c7_level_assignment 30 0 faC7).1 (by decide),
   (c7_level_assignment 22 0 faC7).2.2.2.2.2⟩

/-- Claim C8: on a 13-word, all-lowercase text matching no section-title
pattern and not ending in `?`, whose tagging has content-word ratio
exactly 0.2 with no proper-noun or numeral token, the tagger-backed
primary validator path rejects while the rule-based fallback path accepts
the identical text. -/
theorem c8_validator_divergence (f : List Char → Option (List String)) (text : List Char)
    (toks : List String)
    (hf : f text = some toks)
    (h13 : (pySplit text).length = 13)
    (hnoup : ∀ c ∈ text, ¬ c.isUpper = true)
    (hlow : ∃ c ∈ text, c.isLower = true)
    (hsec : looks_like_section_title text = false)
    (hq : endsWithQ text = false)
    (hratio : (contentCount toks : ℚ) / (toks.length : ℚ) = 1 / 5)
    (hpn : toks.any (fun p => p == "PROPN" || p == "NUM") = false) :
    is_heading_like (some f) text = false ∧ is_heading_like none text = true := by
  constructor
  · have hlen15 : ¬ ((pySplit text).length > 15) := by
      rw [h13]
      norm_num
    have hlen0 : toks.length ≠ 0 := by
      intro h0
      rw [h0] at hratio
      norm_num at hratio
    have hcc : (contentCount toks : ℚ) * 5 = (toks.length : ℚ) := by
      have hq0 : (toks.length : ℚ) ≠ 0 := Nat.cast_ne_zero.mpr hlen0
      field_simp at hratio
      linarith
    have hccpos : 1 ≤ contentCount toks := by
      by_contra hcon
      push_neg at hcon
      have h0 : contentCount toks = 0 := by omega
      rw [h0] at hcc
      simp at hcc
      exact hlen0 (by exact_mod_cast hcc.symm)
    have hlen3 : ¬ (toks.length ≤ 3) := by
      intro hle
      have hle3 : (toks.length : ℚ) ≤ 3 := by exact_mod_cast hle
      have h5 : (5 : ℚ) ≤ (toks.length : ℚ) := by
        have h1 : (1 : ℚ) ≤ (contentCount toks : ℚ) := by exact_mod_cast hccpos
        nlinarith
      linarith
    have hratlt : ¬ ((contentCount toks : ℚ) / (toks.length : ℚ) ≥ 0.4) := by
      rw [hratio]
      norm_num
    unfold is_heading_like
    dsimp only
    rw [if_neg hlen15, hf]
    dsimp only
    rw [if_neg (by simp [hsec]), if_neg (by simp [hq]), if_neg hlen3, if_neg hratlt,
      if_neg (by simp [hpn])]
  · show is_heading_like_rule_based text = true
    unfold is_heading_like_rule_based
    have hup := pyIsUpper_lower text hlow
    have hti := pyIsTitle_lower text hnoup hlow
    rw [if_neg (by simp [hsec]), if_neg (by simp [hup, hti]),
      if_neg (by rw [h13]; norm_num), if_neg (by rw [h13]; norm_num)]

/-- Witness for C8: the concrete 13-word sentence `textC8` with the
15-token, 3-content-word tagging `toksC8` is rejected by the primary path
and accepted by the rule-based fallback. -/
theorem c8_witness :
    is_heading_like (some (fun _ => some toksC8)) textC8 = false ∧
    is_heading_like none textC8 = true :=
  c8_validator_divergence (fun _ => some toksC8) textC8 toksC8 rfl (by decide) (by decide)
    (by decide) (by decide) (by decide) (by decide) (by decide)
